import Mathlib

/-!
Verification of the Xcode target-membership checker
(`check_target_membership.py`): a shallow embedding of its record
extraction, phase-to-target linking, path normalization, membership
diffing and report rendering, together with theorems settling the
specification's claims about them.

Python strings are modelled as `String` / `List Char`; Python `dict`s as
association lists with insertion-order-preserving overwrite; Python `set`s
as `Finset String`.  Regular-expression scans of the source are modelled
by hand-written scanners that implement the exact leftmost, lazy matching
behaviour of the concrete patterns used by the script.
-/

namespace ScheduleWidgets

/-- ASCII whitespace stripped by Python `str.strip()` (the script only ever
strips ASCII text extracted from a project file). -/
def isPySpace (c : Char) : Bool :=
  c = ' ' || c = '\t' || c = '\n' || c = '\r' || c = '\x0b' || c = '\x0c'

/-- Python `\w` word characters (ASCII): letters, digits and underscore. -/
def isWordChar (c : Char) : Bool :=
  c.isAlphanum || c = '_'

/-- Two-sided strip by a predicate: drop the leading and trailing runs of
characters satisfying `p` (Python `str.strip` / `str.strip(chars)`). -/
def stripBy (p : Char → Bool) (l : List Char) : List Char :=
  ((l.dropWhile p).reverse.dropWhile p).reverse

/-- Python `str.strip()` on the character list of a string. -/
def pyStrip (l : List Char) : List Char := stripBy isPySpace l

/-- The quotation-mark character class of Python `str.strip('"')`. -/
def isQuoteChar (c : Char) : Bool := c = '"'

/-- Python `str.strip('"')` on the character list of a string: removes all
leading and trailing quotation marks. -/
def pyStripQuotes (l : List Char) : List Char := stripBy isQuoteChar l

/-- Python `str.replace('\\"', '')`: scan left to right, deleting every
(non-overlapping) occurrence of the two-character sequence backslash-quote.
Models line 119 of `check_target_membership.py`. -/
def removeEscQuotes : List Char → List Char
  | [] => []
  | [c] => [c]
  | c :: d :: rest =>
    if c = '\\' && d = '"' then removeEscQuotes rest
    else c :: removeEscQuotes (d :: rest)

/-- `normalize_path` (lines 117-119): delete escaped-quote sequences, then
strip surrounding whitespace. -/
def normalize_path (s : String) : String :=
  ⟨pyStrip (removeEscQuotes s.data)⟩

/-- The `.strip().strip('"')` value cleanup the record extractor applies to
a matched `path` (line 74) or `name` (line 91) field value. -/
def extractFieldValue (s : String) : String :=
  ⟨pyStripQuotes (pyStrip s.data)⟩

section StripLemmas

variable {p : Char → Bool}

theorem dropWhile_eq_self_of_head (l : List Char)
    (h : ∀ c, l.head? = some c → p c = false) : l.dropWhile p = l := by
  cases l with
  | nil => rfl
  | cons c rest =>
    have hc : p c = false := h c rfl
    simp [List.dropWhile_cons, hc]

theorem dropWhile_sub_self {a : Char} {l : List Char}
    (h : a ∈ l.dropWhile p) : a ∈ l := by
  induction l with
  | nil => exact h
  | cons c rest ih =>
    by_cases hc : p c = true
    · simp only [List.dropWhile_cons, hc, if_true] at h
      exact List.mem_cons_of_mem _ (ih h)
    · simp only [List.dropWhile_cons, hc, if_false] at h
      exact h

theorem dropWhile_dropWhile (l : List Char) :
    (l.dropWhile p).dropWhile p = l.dropWhile p := by
  induction l with
  | nil => rfl
  | cons c rest ih =>
    by_cases hc : p c = true
    · simp [List.dropWhile_cons, hc, ih]
    · simp [List.dropWhile_cons, hc]

/-- `dropWhile` produces a suffix: some prefix was removed. -/
theorem dropWhile_is_suffix (l : List Char) :
    ∃ u, u ++ l.dropWhile p = l := by
  induction l with
  | nil => exact ⟨[], rfl⟩
  | cons c rest ih =>
    by_cases hc : p c = true
    · obtain ⟨u, hu⟩ := ih
      exact ⟨c :: u, by simp [List.dropWhile_cons, hc, hu]⟩
    · exact ⟨[], by simp [List.dropWhile_cons, hc]⟩

/-- A fixed point of `dropWhile` stays fixed on any of its prefixes. -/
theorem dropWhile_eq_self_of_pre {m t : List Char}
    (hm : m.dropWhile p = m) (ht : ∃ u, t ++ u = m) : t.dropWhile p = t := by
  cases t with
  | nil => rfl
  | cons a t' =>
    obtain ⟨u, hu⟩ := ht
    cases m with
    | nil => simp at hu
    | cons b m' =>
      have hab : a = b := by
        have := congrArg List.head? hu
        simpa using this
      subst hab
      have hpa : p a = false := by
        by_contra hne
        have hpa' : p a = true := by
          cases hv : p a with
          | false => exact absurd hv hne
          | true => rfl
        have hm' : m'.dropWhile p = a :: m' := by
          simpa [List.dropWhile_cons, hpa'] using hm
        obtain ⟨u, hu⟩ := dropWhile_is_suffix (p := p) (l := m')
        rw [hm'] at hu
        have := congrArg List.length hu
        simp at this
        omega
      simp [List.dropWhile_cons, hpa]

/-- `stripBy p` output of a left-stripped list is a prefix of it. -/
theorem stripBy_dropWhile_pre (l : List Char) :
    ∃ u, stripBy p l ++ u = l.dropWhile p := by
  obtain ⟨v, hv⟩ := dropWhile_is_suffix (p := p) (l := (l.dropWhile p).reverse)
  refine ⟨v.reverse, ?_⟩
  have := congrArg List.reverse hv
  simpa [stripBy, List.reverse_append] using this

theorem stripBy_idem (l : List Char) :
    stripBy p (stripBy p l) = stripBy p l := by
  have h1 : (stripBy p l).dropWhile p = stripBy p l :=
    dropWhile_eq_self_of_pre (dropWhile_dropWhile l) (stripBy_dropWhile_pre l)
  have hrev : (stripBy p l).reverse = (l.dropWhile p).reverse.dropWhile p := by
    simp [stripBy]
  have h2 : (stripBy p l).reverse.dropWhile p = (stripBy p l).reverse := by
    rw [hrev]
    exact dropWhile_dropWhile _
  calc stripBy p (stripBy p l)
      = (((stripBy p l).dropWhile p).reverse.dropWhile p).reverse := rfl
    _ = ((stripBy p l).reverse.dropWhile p).reverse := by rw [h1]
    _ = ((stripBy p l).reverse).reverse := by rw [h2]
    _ = stripBy p l := List.reverse_reverse _

theorem mem_stripBy {a : Char} {l : List Char} (h : a ∈ stripBy p l) : a ∈ l := by
  unfold stripBy at h
  rw [List.mem_reverse] at h
  have h1 := dropWhile_sub_self h
  rw [List.mem_reverse] at h1
  exact dropWhile_sub_self h1

end StripLemmas

theorem removeEscQuotes_of_no_backslash {l : List Char}
    (h : '\\' ∉ l) : removeEscQuotes l = l := by
  induction l with
  | nil => rfl
  | cons c rest ih =>
    have hc : c ≠ '\\' := fun hc => h (hc ▸ List.mem_cons_self c rest)
    have hrest : '\\' ∉ rest := fun hm => h (List.mem_cons_of_mem _ hm)
    cases rest with
    | nil => rfl
    | cons d rest' =>
      have : (c = '\\' && d = '"') = false := by
        cases hcd : decide (c = '\\') with
        | false => simp [hcd]
        | true => exact absurd (of_decide_eq_true hcd) hc
      rw [removeEscQuotes, this]
      simp only [Bool.false_eq_true, if_false]
      rw [ih hrest]

theorem normalize_path_of_no_backslash {s : String} (h : '\\' ∉ s.data) :
    normalize_path s = ⟨pyStrip s.data⟩ := by
  unfold normalize_path
  rw [removeEscQuotes_of_no_backslash h]

/-- C4 counterexample: on the four-character string backslash-backslash-quote-quote,
one pass of `normalize_path` removes the inner escaped-quote pair, re-joining the
outer backslash and quote into a fresh escaped-quote sequence that only a second
pass removes; so normalization is not idempotent on this input. -/
theorem c4_normalize_not_idempotent :
    normalize_path (normalize_path "\\\\\"\"") ≠ normalize_path "\\\\\"\"" := by
  decide

/-- C4 (amended): `normalize_path` is a total function (so it never raises) and is
idempotent on every string containing no backslash character — in particular on
every path free of escape sequences; it is not idempotent on all strings. -/
theorem c4_normalize_idempotent_no_backslash (s : String) (h : '\\' ∉ s.data) :
    normalize_path (normalize_path s) = normalize_path s := by
  rw [normalize_path_of_no_backslash h]
  have h2 : '\\' ∉ pyStrip s.data := fun hm => h (mem_stripBy hm)
  have : normalize_path ⟨pyStrip s.data⟩ = ⟨pyStrip (pyStrip s.data)⟩ := by
    unfold normalize_path
    rw [removeEscQuotes_of_no_backslash h2]
  rw [this]
  unfold pyStrip
  rw [stripBy_idem]

/-- C4 witness: the amended idempotence theorem applied at a concrete
backslash-free path. -/
theorem c4_normalize_idempotent_witness :
    normalize_path (normalize_path "A/B.swift") = normalize_path "A/B.swift" :=
  c4_normalize_idempotent_no_backslash "A/B.swift" (by decide)

/-- Boolean test: `pat` is an initial segment of `l`. -/
def isPrefixL : List Char → List Char → Bool
  | [], _ => true
  | _ :: _, [] => false
  | a :: as, b :: bs => a = b && isPrefixL as bs

/-- Boolean test: `pat` occurs contiguously inside `hay`
(the semantics of the Python operator `in` on strings, lines 104, 137, 175). -/
def isSubstrL (pat : List Char) : List Char → Bool
  | [] => isPrefixL pat []
  | c :: rest => isPrefixL pat (c :: rest) || isSubstrL pat rest

/-- Declarative statement that `pat` occurs contiguously inside `hay`. -/
def SubstrOf (pat hay : List Char) : Prop :=
  ∃ s t, s ++ pat ++ t = hay

theorem isPrefixL_iff {pat l : List Char} :
    isPrefixL pat l = true ↔ ∃ t, pat ++ t = l := by
  induction pat generalizing l with
  | nil => simp [isPrefixL]
  | cons a as ih =>
    cases l with
    | nil =>
      simp [isPrefixL]
    | cons b bs =>
      rw [isPrefixL]
      simp only [Bool.and_eq_true, decide_eq_true_eq, ih]
      constructor
      · rintro ⟨rfl, t, rfl⟩
        exact ⟨t, rfl⟩
      · rintro ⟨t, ht⟩
        have hab : a = b := by
          have := congrArg List.head? ht
          simpa using this
        subst hab
        refine ⟨rfl, t, ?_⟩
        have := congrArg List.tail ht
        simpa using this

theorem isSubstrL_iff {pat hay : List Char} :
    isSubstrL pat hay = true ↔ SubstrOf pat hay := by
  induction hay with
  | nil =>
    rw [isSubstrL, isPrefixL_iff]
    constructor
    · rintro ⟨t, ht⟩
      exact ⟨[], t, by simpa using ht⟩
    · rintro ⟨s, t, hst⟩
      have hs : s = [] := by
        cases s with
        | nil => rfl
        | cons x xs => simp at hst
      subst hs
      exact ⟨t, by simpa using hst⟩
  | cons c rest ih =>
    rw [isSubstrL]
    simp only [Bool.or_eq_true, isPrefixL_iff, ih]
    constructor
    · rintro (⟨t, ht⟩ | ⟨s, t, hst⟩)
      · exact ⟨[], t, by simpa using ht⟩
      · exact ⟨c :: s, t, by simp [hst]⟩
    · rintro ⟨s, t, hst⟩
      cases s with
      | nil =>
        exact Or.inl ⟨t, by simpa using hst⟩
      | cons x xs =>
        right
        refine ⟨xs, t, ?_⟩
        have := congrArg List.tail hst
        simpa using this

instance (pat hay : List Char) : Decidable (SubstrOf pat hay) :=
  decidable_of_iff (isSubstrL pat hay = true) isSubstrL_iff

/-- Leftmost-occurrence search: the least index at which `pat` starts inside
`hay`, or `none`. -/
def findAux (pat : List Char) : List Char → Option Nat
  | [] => if isPrefixL pat [] then some 0 else none
  | c :: rest =>
    if isPrefixL pat (c :: rest) then some 0
    else (findAux pat rest).map (· + 1)

/-- `pat` occurs in `hay` starting at index `i`. -/
def OccAt (hay pat : List Char) (i : Nat) : Prop :=
  ∃ t, pat ++ t = hay.drop i

/-- `i` is the first index at or after `start` at which `pat` occurs in `hay`. -/
def FirstOccFrom (hay pat : List Char) (start i : Nat) : Prop :=
  start ≤ i ∧ OccAt hay pat i ∧ ∀ j, start ≤ j → j < i → ¬OccAt hay pat j

theorem findAux_some_iff {pat hay : List Char} {n : Nat} :
    findAux pat hay = some n ↔
      (OccAt hay pat n ∧ ∀ m, m < n → ¬OccAt hay pat m) := by
  induction hay generalizing n with
  | nil =>
    rw [findAux]
    by_cases hp : isPrefixL pat [] = true
    · rw [if_pos hp]
      obtain ⟨t, ht⟩ := isPrefixL_iff.mp hp
      constructor
      · rintro h
        have hn : n = 0 := by simpa using h.symm
        subst hn
        exact ⟨⟨t, ht⟩, fun m hm => absurd hm (by omega)⟩
      · rintro ⟨_, hmin⟩
        by_contra hne
        have hn0 : 0 < n := by
          rcases Nat.eq_zero_or_pos n with h0 | hpos
          · subst h0; exact absurd rfl hne
          · exact hpos
        exact hmin 0 hn0 ⟨t, by simpa using ht⟩
    · rw [if_neg hp]
      constructor
      · rintro h
        simp at h
      · rintro ⟨⟨t, ht⟩, _⟩
        exfalso
        apply hp
        apply isPrefixL_iff.mpr
        -- `hay = []`, so dropping still gives a list `pat` prefixes only if short
        have : pat ++ t = [] := by simpa using ht
        exact ⟨t, this⟩
  | cons c rest ih =>
    rw [findAux]
    by_cases hp : isPrefixL pat (c :: rest) = true
    · rw [if_pos hp]
      obtain ⟨t, ht⟩ := isPrefixL_iff.mp hp
      constructor
      · rintro h
        have hn : n = 0 := by simpa using h.symm
        subst hn
        exact ⟨⟨t, by simpa using ht⟩, fun m hm => absurd hm (by omega)⟩
      · rintro ⟨_, hmin⟩
        by_contra hne
        have hn0 : 0 < n := by
          rcases Nat.eq_zero_or_pos n with h0 | hpos
          · subst h0; exact absurd rfl hne
          · exact hpos
        exact hmin 0 hn0 ⟨t, by simpa using ht⟩
    · rw [if_neg hp]
      have hocc0 : ¬OccAt (c :: rest) pat 0 := by
        rintro ⟨t, ht⟩
        exact hp (isPrefixL_iff.mpr ⟨t, by simpa using ht⟩)
      constructor
      · intro h
        obtain ⟨n', hn', rfl⟩ : ∃ n', findAux pat rest = some n' ∧ n = n' + 1 := by
          cases hfa : findAux pat rest with
          | none => rw [hfa] at h; exact Option.noConfusion h
          | some k =>
            rw [hfa] at h
            have h' : some (k + 1) = some n := h
            exact ⟨k, rfl, (Option.some.inj h').symm⟩
        obtain ⟨hocc, hmin⟩ := ih.mp hn'
        refine ⟨?_, ?_⟩
        · obtain ⟨t, ht⟩ := hocc
          exact ⟨t, by simpa using ht⟩
        · intro m hm
          cases m with
          | zero => exact hocc0
          | succ m' =>
            rintro ⟨t, ht⟩
            exact hmin m' (by omega) ⟨t, by simpa using ht⟩
      · rintro ⟨hocc, hmin⟩
        cases n with
        | zero => exact absurd hocc hocc0
        | succ n' =>
          have : findAux pat rest = some n' := by
            apply ih.mpr
            obtain ⟨t, ht⟩ := hocc
            refine ⟨⟨t, by simpa using ht⟩, ?_⟩
            intro m hm
            rintro ⟨t', ht'⟩
            exact hmin (m + 1) (by omega) ⟨t', by simpa using ht'⟩
          rw [this]
          rfl

theorem findAux_none_iff {pat hay : List Char} :
    findAux pat hay = none ↔ ∀ n, ¬OccAt hay pat n := by
  constructor
  · intro h n hocc
    -- if an occurrence exists, a least one exists, contradicting `none`
    by_cases hex : ∃ m, findAux pat hay = some m
    · obtain ⟨m, hm⟩ := hex
      rw [h] at hm
      exact Option.noConfusion hm
    · -- show `findAux` succeeds whenever an occurrence exists
      exfalso
      apply hex
      clear h hex
      induction hay generalizing n with
      | nil =>
        obtain ⟨t, ht⟩ := hocc
        have hpt : pat ++ t = [] := by simpa using ht
        exact ⟨0, by rw [findAux, if_pos (isPrefixL_iff.mpr ⟨t, hpt⟩)]⟩
      | cons c rest ih =>
        by_cases hp : isPrefixL pat (c :: rest) = true
        · exact ⟨0, by rw [findAux, if_pos hp]⟩
        · cases n with
          | zero =>
            obtain ⟨t, ht⟩ := hocc
            exact absurd (isPrefixL_iff.mpr ⟨t, by simpa using ht⟩) hp
          | succ n' =>
            obtain ⟨t, ht⟩ := hocc
            obtain ⟨m, hm⟩ := ih (n := n') ⟨t, by simpa using ht⟩
            exact ⟨m + 1, by rw [findAux, if_neg hp, hm]; rfl⟩
  · intro h
    cases hfa : findAux pat hay with
    | none => rfl
    | some m => exact absurd (findAux_some_iff.mp hfa).1 (h m)

/-- `re.search`-style search for `pat` in `hay` starting from index `start`,
returning the absolute index of the leftmost occurrence. -/
def findFrom (hay pat : List Char) (start : Nat) : Option Nat :=
  (findAux pat (hay.drop start)).map (· + start)

theorem occAt_shift {hay pat : List Char} {start m : Nat} :
    OccAt (hay.drop start) pat m ↔ OccAt hay pat (m + start) := by
  unfold OccAt
  rw [List.drop_drop, Nat.add_comm start m]

theorem findFrom_some_iff {hay pat : List Char} {start i : Nat} :
    findFrom hay pat start = some i ↔ FirstOccFrom hay pat start i := by
  unfold findFrom FirstOccFrom
  constructor
  · intro h
    obtain ⟨m, hm, rfl⟩ : ∃ m, findAux pat (hay.drop start) = some m ∧ i = m + start := by
      cases hfa : findAux pat (hay.drop start) with
      | none => rw [hfa] at h; exact Option.noConfusion h
      | some k =>
        rw [hfa] at h
        have h' : some (k + start) = some i := h
        exact ⟨k, rfl, (Option.some.inj h').symm⟩
    obtain ⟨hocc, hmin⟩ := findAux_some_iff.mp hm
    refine ⟨by omega, occAt_shift.mp hocc, ?_⟩
    intro j hj1 hj2 hj3
    have hj : j = (j - start) + start := by omega
    rw [hj] at hj3
    exact hmin (j - start) (by omega) (occAt_shift.mpr hj3)
  · rintro ⟨hle, hocc, hmin⟩
    have : findAux pat (hay.drop start) = some (i - start) := by
      apply findAux_some_iff.mpr
      refine ⟨occAt_shift.mpr (by rwa [Nat.sub_add_cancel hle]), ?_⟩
      intro m hm hocc'
      have hx : OccAt hay pat (m + start) := occAt_shift.mp hocc'
      exact hmin (m + start) (by omega) (by omega) hx
    rw [this]
    simp [Nat.sub_add_cancel hle]

theorem firstOccFrom_unique {hay pat : List Char} {start i i' : Nat}
    (h : FirstOccFrom hay pat start i) (h' : FirstOccFrom hay pat start i') :
    i = i' := by
  rcases Nat.lt_trichotomy i i' with hlt | heq | hgt
  · exact absurd h.2.1 (h'.2.2 i h.1 hlt)
  · exact heq
  · exact absurd h'.2.1 (h.2.2 i' h'.1 hgt)

/-- The authoritative "should be in the macOS widget target" configuration set
(lines 12-46).  Python set literals are modelled as lists; all set operations
used on them are order-insensitive or explicitly sorted. -/
def MACOS_WIDGET_FILES : List String :=
  [ "AMFScheduleWidget/Widgets/ScheduleWidgetProvider.swift",
    "AMFScheduleWidget/Widgets/ScheduleWidgetIntent.swift",
    "AMFScheduleWidget/Widgets/WeatherClusterView.swift",
    "AMFScheduleWidget/Widgets/AMFScheduleWidget.swift",
    "AMFScheduleWidgetMAC/AMFScheduleWidgetMacBundle.swift",
    "AMFScheduleWidgetMAC/Widgets/MacWidgetDefinitions.swift",
    "AMFScheduleWidget/Widgets/Mac/MacAmbientAgendaWidget.swift",
    "AMFScheduleWidget/Widgets/Mac/MacNotificationCenterWidget.swift",
    "AMFScheduleWidget/Widgets/Intents/WidgetInteractionIntents.swift",
    "AMFScheduleWidget/Widgets/iPad/SwimlanesView.swift",
    "AMFScheduleWidget/Widgets/iPad/TimelineView.swift",
    "Schedule Summary Widget Nov 26 2025/Shared/Models/ScheduleEvent.swift",
    "Schedule Summary Widget Nov 26 2025/Shared/Models/ClientCalendar.swift",
    "Schedule Summary Widget Nov 26 2025/Shared/Models/Summaries.swift",
    "Schedule Summary Widget Nov 26 2025/Shared/Models/WeatherModel.swift",
    "Schedule Summary Widget Nov 26 2025/Shared/Models/WidgetTheme.swift",
    "Schedule Summary Widget Nov 26 2025/Shared/Services/AppGroupStore.swift",
    "Schedule Summary Widget Nov 26 2025/Shared/Services/WidgetThemeStore.swift",
    "Schedule Summary Widget Nov 26 2025/Shared/Services/CalendarService.swift",
    "Schedule Summary Widget Nov 26 2025/Shared/Services/WeatherService.swift",
    "Schedule Summary Widget Nov 26 2025/Shared/Services/GeminiSummarizer.swift",
    "Schedule Summary Widget Nov 26 2025/Shared/Services/GoogleCalendarAPI.swift" ]

/-- The "belongs only in the main app" configuration set (lines 48-55). -/
def MAIN_APP_ONLY_FILES : List String :=
  [ "Schedule Summary Widget Nov 26 2025/AMFScheduleApp.swift",
    "Schedule Summary Widget Nov 26 2025/ContentView.swift",
    "Schedule Summary Widget Nov 26 2025/CalendarSettingsView.swift",
    "Schedule Summary Widget Nov 26 2025/PhotoBackgroundEditorView.swift",
    "Schedule Summary Widget Nov 26 2025/WidgetStudioView.swift",
    "Schedule Summary Widget Nov 26 2025/Shared/Services/BackgroundScheduler.swift" ]

/-- The "belongs only in the iOS widget" configuration set (lines 57-62). -/
def IOS_WIDGET_ONLY_FILES : List String :=
  [ "AMFScheduleWidget/AMFScheduleWidgetBundle.swift",
    "AMFScheduleWidget/Widgets/WidgetDefinitions.swift",
    "AMFScheduleWidget/Widgets/iPad/iPadDayboardWidget.swift",
    "AMFScheduleWidget/Widgets/iPad/LockScreenWidgets.swift" ]

/-- The normalized-path set built from a raw path list: models the set
comprehensions of lines 153-154. -/
def normSet (l : List String) : Finset String :=
  (l.map normalize_path).toFinset

/-- The Membership Differ (lines 153-157): normalize both sides, then take
the two plain set differences `missing` and `extra`. -/
def computeDiff (currentRaw expectedRaw : List String) :
    Finset String × Finset String :=
  (normSet expectedRaw \ normSet currentRaw,
   normSet currentRaw \ normSet expectedRaw)

/-- C1: the differ's `missing` and `extra` are the plain set differences of
the normalized expected and current sets — membership is exact, with no
fuzzy or prefix matching; and on the spec's concrete example (a target whose
single sources phase resolves to path A/B.swift, expected set
{A/B.swift, A/C.swift}) it returns missing = {A/C.swift} and extra = {}. -/
theorem c1_membership_diff :
    (∀ (currentRaw expectedRaw : List String) (f : String),
      (f ∈ (computeDiff currentRaw expectedRaw).1 ↔
        f ∈ normSet expectedRaw ∧ f ∉ normSet currentRaw) ∧
      (f ∈ (computeDiff currentRaw expectedRaw).2 ↔
        f ∈ normSet currentRaw ∧ f ∉ normSet expectedRaw)) ∧
    computeDiff ["A/B.swift"] ["A/B.swift", "A/C.swift"] =
      ({"A/C.swift"}, (∅ : Finset String)) := by
  constructor
  · intro currentRaw expectedRaw f
    constructor
    · simp [computeDiff, Finset.mem_sdiff]
    · simp [computeDiff, Finset.mem_sdiff]
  · decide

/-- Classification of an `extra` entry: the kind of annotation the report
prints for it (line 176 vs line 178). -/
inductive ExtraClass where
  | conflict
  | unexpected
deriving DecidableEq

/-- The conflict test of line 175: some configured path fragment occurs as a
substring of the file's path. -/
def isConflictWith (cfg : List String) (file : String) : Bool :=
  cfg.any (fun e => isSubstrL e.data file.data)

/-- How the report classifies an extra entry (lines 175-178), using the union
of the two "belongs elsewhere" configuration sets. -/
def classifyExtra (file : String) : ExtraClass :=
  if isConflictWith (MAIN_APP_ONLY_FILES ++ IOS_WIDGET_ONLY_FILES) file then
    ExtraClass.conflict
  else ExtraClass.unexpected

/-- C2: an extra entry is flagged as a conflict exactly when its path contains,
as a substring (not exact match), some member of either "belongs elsewhere"
configuration set; otherwise it is flagged as merely unexpected. -/
theorem c2_extra_classification :
    ∀ file : String,
      (classifyExtra file = ExtraClass.conflict ↔
        ∃ e, (e ∈ MAIN_APP_ONLY_FILES ∨ e ∈ IOS_WIDGET_ONLY_FILES) ∧
          SubstrOf e.data file.data) ∧
      (classifyExtra file = ExtraClass.unexpected ↔
        ¬∃ e, (e ∈ MAIN_APP_ONLY_FILES ∨ e ∈ IOS_WIDGET_ONLY_FILES) ∧
          SubstrOf e.data file.data) := by
  intro file
  have hiff : isConflictWith (MAIN_APP_ONLY_FILES ++ IOS_WIDGET_ONLY_FILES) file = true ↔
      ∃ e, (e ∈ MAIN_APP_ONLY_FILES ∨ e ∈ IOS_WIDGET_ONLY_FILES) ∧
        SubstrOf e.data file.data := by
    unfold isConflictWith
    rw [List.any_eq_true]
    constructor
    · rintro ⟨e, he, hsub⟩
      exact ⟨e, List.mem_append.mp he, isSubstrL_iff.mp hsub⟩
    · rintro ⟨e, he, hsub⟩
      exact ⟨e, List.mem_append.mpr he, isSubstrL_iff.mpr hsub⟩
  unfold classifyExtra
  by_cases hc : isConflictWith (MAIN_APP_ONLY_FILES ++ IOS_WIDGET_ONLY_FILES) file = true
  · rw [if_pos hc]
    constructor
    · constructor
      · intro _
        exact hiff.mp hc
      · intro _
        rfl
    · constructor
      · intro h
        exact absurd h (by decide)
      · intro hne
        exact absurd (hiff.mp hc) hne
  · rw [if_neg hc]
    constructor
    · constructor
      · intro h
        exact absurd h (by decide)
      · intro h
        exact absurd (hiff.mpr h) hc
    · constructor
      · intro _ h
        exact hc (hiff.mpr h)
      · intro _
        rfl

/-- A parsed native target as the checker sees it after extraction: its
declared name and its resolved source-file paths. -/
structure TargetInfo where
  name : String
  files : List String
deriving DecidableEq

/-- The macOS-target selection test of line 137: the name contains the
case-sensitive substring MAC or Mac. -/
def hasMacName (t : TargetInfo) : Bool :=
  isSubstrL "MAC".data t.name.data || isSubstrL "Mac".data t.name.data

/-- The selection loop of lines 135-139: first target whose name matches. -/
def findMacTarget (targets : List TargetInfo) : Option TargetInfo :=
  targets.find? hasMacName

/-- Outcome of the membership check after parsing (lines 134-157): either the
unresolved-target report listing every discovered target name, or the chosen
target together with its missing/extra diff. -/
inductive CheckResult where
  | unresolved (names : List String)
  | found (targetName : String) (missing extra : Finset String)
deriving DecidableEq

/-- The post-parse portion of `check_target_membership` (lines 134-157):
select the macOS widget target and diff its files against the expected set;
if no target name matches, report the unresolved condition with all names. -/
def runMembershipCheck (targets : List TargetInfo) : CheckResult :=
  match findMacTarget targets with
  | none => CheckResult.unresolved (targets.map TargetInfo.name)
  | some t =>
      CheckResult.found t.name
        (computeDiff t.files MACOS_WIDGET_FILES).1
        (computeDiff t.files MACOS_WIDGET_FILES).2

theorem hasMacName_eq_true_iff (t : TargetInfo) :
    hasMacName t = true ↔
      SubstrOf "MAC".data t.name.data ∨ SubstrOf "Mac".data t.name.data := by
  unfold hasMacName
  rw [Bool.or_eq_true, isSubstrL_iff, isSubstrL_iff]

/-- C3: the routine selects the first target whose name contains the
case-sensitive substring MAC or Mac; when no target name contains such a
substring it reports the unresolved-target condition listing all discovered
target names (a total function: it cannot raise or crash) and produces no
diff. -/
theorem c3_target_selection :
    ∀ targets : List TargetInfo,
      ((∀ t ∈ targets,
          ¬SubstrOf "MAC".data t.name.data ∧ ¬SubstrOf "Mac".data t.name.data) →
        runMembershipCheck targets =
          CheckResult.unresolved (targets.map TargetInfo.name)) ∧
      (∀ pre t post, targets = pre ++ t :: post →
        (∀ u ∈ pre,
          ¬SubstrOf "MAC".data u.name.data ∧ ¬SubstrOf "Mac".data u.name.data) →
        (SubstrOf "MAC".data t.name.data ∨ SubstrOf "Mac".data t.name.data) →
        runMembershipCheck targets =
          CheckResult.found t.name
            (computeDiff t.files MACOS_WIDGET_FILES).1
            (computeDiff t.files MACOS_WIDGET_FILES).2) := by
  intro targets
  constructor
  · intro h
    have hfind : findMacTarget targets = none := by
      apply List.find?_eq_none.mpr
      intro x hx hmac
      rcases (hasMacName_eq_true_iff x).mp hmac with hs | hs
      · exact (h x hx).1 hs
      · exact (h x hx).2 hs
    unfold runMembershipCheck
    rw [hfind]
  · intro pre t post hsplit hpre hmac
    have hfind : findMacTarget targets = some t := by
      subst hsplit
      unfold findMacTarget
      induction pre with
      | nil =>
        exact List.find?_cons_of_pos _ ((hasMacName_eq_true_iff t).mpr hmac)
      | cons u pre' ih =>
        have hu : ¬hasMacName u = true := by
          intro hmu
          rcases (hasMacName_eq_true_iff u).mp hmu with hs | hs
          · exact (hpre u (List.mem_cons_self u pre')).1 hs
          · exact (hpre u (List.mem_cons_self u pre')).2 hs
        rw [List.cons_append, List.find?_cons_of_neg _ hu]
        exact ih fun v hv => hpre v (List.mem_cons_of_mem u hv)
    unfold runMembershipCheck
    rw [hfind]

/-- C3 witness: the selection theorem applied to two concrete target lists,
one with no Mac-named target (unresolved report listing both names) and one
whose second target matches. -/
theorem c3_target_selection_witness :
    runMembershipCheck [⟨"WidgetKit", []⟩, ⟨"Helper", []⟩] =
      CheckResult.unresolved ["WidgetKit", "Helper"] ∧
    runMembershipCheck [⟨"WidgetKit", []⟩, ⟨"AppMacExt", ["A/B.swift"]⟩] =
      CheckResult.found "AppMacExt"
        (computeDiff ["A/B.swift"] MACOS_WIDGET_FILES).1
        (computeDiff ["A/B.swift"] MACOS_WIDGET_FILES).2 :=
  ⟨(c3_target_selection [⟨"WidgetKit", []⟩, ⟨"Helper", []⟩]).1 (by decide),
   (c3_target_selection [⟨"WidgetKit", []⟩, ⟨"AppMacExt", ["A/B.swift"]⟩]).2
     [⟨"WidgetKit", []⟩] ⟨"AppMacExt", ["A/B.swift"]⟩ [] rfl (by decide)
     (Or.inr (by decide))⟩

/-- The quoted-name rule exactly as the specification words it: strip exactly
one leading and one trailing quotation mark when the value is wrapped in
quotation marks, otherwise leave the value unchanged.  Stated for the
refinement comparison with the extractor's actual `.strip().strip('"')`. -/
def stripOneQuoteSpec (s : String) : String :=
  if s.data.length ≥ 2 ∧ s.data.head? = some '"' ∧ s.data.getLast? = some '"' then
    ⟨(s.data.drop 1).dropLast⟩
  else s

/-- C5 counterexample: on a value wrapped in two quotation marks on each side,
the extractor's cleanup removes all of them, while the claim prescribes
removing exactly one pair and keeping the rest. -/
theorem c5_quote_strip_counterexample :
    extractFieldValue "\"\"A\"\"" = "A" ∧
    stripOneQuoteSpec "\"\"A\"\"" = "\"A\"" ∧
    extractFieldValue "\"\"A\"\"" ≠ stripOneQuoteSpec "\"\"A\"\"" := by
  refine ⟨by decide, by decide, by decide⟩

theorem dropWhile_replicate_append {p : Char → Bool} {c : Char}
    (hp : p c = true) (k : Nat) (l : List Char) :
    (List.replicate k c ++ l).dropWhile p = l.dropWhile p := by
  induction k with
  | zero => rfl
  | succ k ih =>
    rw [List.replicate_succ, List.cons_append, List.dropWhile_cons, hp]
    simpa using ih

/-- A value edge (first or last character) that survives both strips: not
whitespace and not a quotation mark. -/
def edgeOK (oc : Option Char) : Bool :=
  match oc with
  | some c => !isPySpace c && !isQuoteChar c
  | none => true

/-- C5 (amended): the extractor first trims surrounding whitespace and then
strips ALL leading and trailing quotation marks, not exactly one pair: a value
core `t` (nonempty, whose first and last characters are neither whitespace nor
quotation marks) wrapped in any numbers `m` and `n` of quotation marks is
extracted as exactly `t`; in particular an unwrapped value (`m = n = 0`) is
unchanged, and every surrounding quotation mark of a multiply-wrapped value is
removed. -/
theorem c5_strip_all_quotes (m n : Nat) (t : List Char) (hne : t ≠ [])
    (hh : edgeOK t.head? = true) (hl : edgeOK t.getLast? = true) :
    extractFieldValue ⟨List.replicate m '"' ++ t ++ List.replicate n '"'⟩ = ⟨t⟩ := by
  obtain ⟨c0, tr, rfl⟩ : ∃ c0 tr, t = c0 :: tr := by
    cases t with
    | nil => exact absurd rfl hne
    | cons a b => exact ⟨a, b, rfl⟩
  have hh' : isPySpace c0 = false ∧ isQuoteChar c0 = false := by
    simp only [List.head?_cons, edgeOK, Bool.and_eq_true, Bool.not_eq_true'] at hh
    exact hh
  obtain ⟨d, rr, hrev⟩ : ∃ d rr, (c0 :: tr).reverse = d :: rr := by
    cases hr : (c0 :: tr).reverse with
    | nil =>
      have := congrArg List.length hr
      simp at this
    | cons a b => exact ⟨a, b, rfl⟩
  have hlast : (c0 :: tr).getLast? = some d := by
    rw [← List.head?_reverse, hrev]
    rfl
  have hl' : isPySpace d = false ∧ isQuoteChar d = false := by
    rw [hlast] at hl
    simp only [edgeOK, Bool.and_eq_true, Bool.not_eq_true'] at hl
    exact hl
  have hA1 :
      (List.replicate m '"' ++ (c0 :: tr) ++ List.replicate n '"').dropWhile isPySpace =
        List.replicate m '"' ++ (c0 :: tr) ++ List.replicate n '"' := by
    apply dropWhile_eq_self_of_head
    intro c hc
    cases m with
    | zero =>
      simp only [List.replicate, List.nil_append, List.cons_append,
        List.head?_cons] at hc
      rw [← Option.some.inj hc]
      exact hh'.1
    | succ k =>
      simp only [List.replicate_succ, List.cons_append, List.head?_cons] at hc
      rw [← Option.some.inj hc]
      rfl
  have hsrev :
      (List.replicate m '"' ++ (c0 :: tr) ++ List.replicate n '"').reverse =
        List.replicate n '"' ++ ((c0 :: tr).reverse ++ List.replicate m '"') := by
    simp [List.reverse_append, List.reverse_replicate, List.append_assoc]
  have hA2 :
      (List.replicate m '"' ++ (c0 :: tr) ++ List.replicate n '"').reverse.dropWhile
          isPySpace =
        (List.replicate m '"' ++ (c0 :: tr) ++ List.replicate n '"').reverse := by
    apply dropWhile_eq_self_of_head
    intro c hc
    rw [hsrev] at hc
    cases n with
    | zero =>
      rw [hrev] at hc
      simp only [List.replicate, List.nil_append, List.cons_append,
        List.head?_cons] at hc
      rw [← Option.some.inj hc]
      exact hl'.1
    | succ k =>
      simp only [List.replicate_succ, List.cons_append, List.head?_cons] at hc
      rw [← Option.some.inj hc]
      rfl
  have hstrip :
      pyStrip (List.replicate m '"' ++ (c0 :: tr) ++ List.replicate n '"') =
        List.replicate m '"' ++ (c0 :: tr) ++ List.replicate n '"' := by
    unfold pyStrip stripBy
    rw [hA1, hA2, List.reverse_reverse]
  have hq1 :
      (List.replicate m '"' ++ (c0 :: tr) ++ List.replicate n '"').dropWhile
          isQuoteChar =
        (c0 :: tr) ++ List.replicate n '"' := by
    rw [List.append_assoc, dropWhile_replicate_append (by decide)]
    rw [List.cons_append, List.dropWhile_cons, hh'.2]
    simp
  have hq2 :
      ((c0 :: tr) ++ List.replicate n '"').reverse.dropWhile isQuoteChar =
        (c0 :: tr).reverse := by
    rw [List.reverse_append, List.reverse_replicate,
      dropWhile_replicate_append (by decide), hrev, List.dropWhile_cons, hl'.2]
    simp
  show ⟨pyStripQuotes (pyStrip (List.replicate m '"' ++ (c0 :: tr) ++
    List.replicate n '"'))⟩ = String.mk (c0 :: tr)
  rw [hstrip]
  unfold pyStripQuotes stripBy
  rw [hq1, hq2, List.reverse_reverse]

/-- C5 witness: the amended theorem applied with one surrounding quotation mark
on each side of the core value Ab. -/
theorem c5_strip_all_quotes_witness :
    extractFieldValue ⟨List.replicate 1 '"' ++ ['A', 'b'] ++ List.replicate 1 '"'⟩ =
      ⟨['A', 'b']⟩ :=
  c5_strip_all_quotes 1 1 ['A', 'b'] (by decide) (by decide) (by decide)

section DictModel

variable {K V : Type} [DecidableEq K]

/-- Python dict lookup `d[k]` / `k in d` over the insertion-ordered
association-list model of a dict. -/
def dictLookup : List (K × V) → K → Option V
  | [], _ => none
  | r :: rest, k => if r.1 = k then some r.2 else dictLookup rest k

/-- Python dict assignment `d[k] = v`: overwrite the value in place when the
key is present (keeping its original position), append otherwise. -/
def dictInsert : List (K × V) → K → V → List (K × V)
  | [], k, v => [(k, v)]
  | r :: rest, k, v =>
    if r.1 = k then (k, v) :: rest else r :: dictInsert rest k v

/-- The record-extraction loops of the Record Extractor (lines 72-76, 81-84
and 89-92): fold the matched records — given in document order, as
`re.finditer` yields them — into a dict via repeated assignment.  The
extractor's only output is the mapping itself: its type carries no
duplicate-identifier report. -/
def buildMapping (records : List (K × V)) : List (K × V) :=
  records.foldl (fun d r => dictInsert d r.1 r.2) []

/-- The value of the record with key `k` occurring last in the record list
(document order). -/
def lastValue : List (K × V) → K → Option V
  | [], _ => none
  | r :: rest, k =>
    match lastValue rest k with
    | some w => some w
    | none => if r.1 = k then some r.2 else none

/-- First-some choice on options. -/
def optOr : Option V → Option V → Option V
  | some w, _ => some w
  | none, o => o

theorem dictLookup_insert (d : List (K × V)) (k' k : K) (v : V) :
    dictLookup (dictInsert d k' v) k =
      if k' = k then some v else dictLookup d k := by
  induction d with
  | nil => rfl
  | cons r rest ih =>
    by_cases hr : r.1 = k'
    · rw [dictInsert, if_pos hr]
      by_cases hk : k' = k
      · subst hk
        rw [dictLookup, if_pos rfl, dictLookup, if_pos hr, if_pos rfl]
      · rw [dictLookup, if_neg hk, if_neg hk, dictLookup,
          if_neg (show ¬r.1 = k from fun h => hk (hr.symm.trans h))]
    · rw [dictInsert, if_neg hr, dictLookup]
      by_cases hrk : r.1 = k
      · have hk : ¬k' = k := fun h => hr (h ▸ hrk)
        rw [if_pos hrk, if_neg hk, dictLookup, if_pos hrk]
      · rw [if_neg hrk, ih, dictLookup, if_neg hrk]

theorem dictLookup_foldl (records : List (K × V)) :
    ∀ (d : List (K × V)) (k : K),
      dictLookup (records.foldl (fun d r => dictInsert d r.1 r.2) d) k =
        optOr (lastValue records k) (dictLookup d k) := by
  induction records with
  | nil => intro d k; rfl
  | cons r rs ih =>
    intro d k
    rw [List.foldl_cons, ih, dictLookup_insert]
    cases hlv : lastValue rs k with
    | some w => simp [optOr, lastValue, hlv]
    | none =>
      by_cases hr : r.1 = k
      · simp [optOr, lastValue, hlv, hr]
      · simp [optOr, lastValue, hlv, hr]

/-- C10: when several records of the same kind declare the same identifier,
the Record Extractor's mapping holds the values of the record matched last in
document order — later matches silently overwrite earlier ones, and the
extractor reports no duplicate-identifier condition (its result is the bare
mapping). -/
theorem c10_last_record_wins :
    ∀ (V : Type) (records : List (String × V)) (k : String),
      dictLookup (buildMapping records) k = lastValue records k := by
  intro V records k
  rw [buildMapping, dictLookup_foldl]
  cases lastValue records k with
  | some w => rfl
  | none => rfl

end DictModel

/-- An extracted file reference: the `path` and `sourceTree` fields of a
PBXFileReference record (lines 71-76). -/
structure FileRef where
  path : List Char
  sourceTree : List Char
deriving DecidableEq

/-- The per-entry lookup chain of lines 109-112: build-file id to
file-reference id to path; `none` on any failed lookup. -/
def resolveEntry (buildFiles : List (List Char × List Char))
    (fileRefs : List (List Char × FileRef)) (bid : List Char) :
    Option (List Char) :=
  match dictLookup buildFiles bid with
  | none => none
  | some fid =>
    match dictLookup fileRefs fid with
    | none => none
    | some ref => some ref.path

/-- The resolution loop of lines 107-113 over a phase's extracted build-file
identifiers: keep, in encounter order, the path of every identifier whose
two-step lookup succeeds. -/
def resolvePhaseFiles (buildFiles : List (List Char × List Char))
    (fileRefs : List (List Char × FileRef)) (ids : List (List Char)) :
    List (List Char) :=
  ids.filterMap (resolveEntry buildFiles fileRefs)

/-- Lazy scan for the closing comment delimiter: consume characters (newline
forbidden, as the pattern uses dot without DOTALL) until the first
star-slash, returning the rest of the input; models the tail of the
line-106 pattern. -/
def scanCommentBody : List Char → Option (List Char)
  | [] => none
  | '*' :: '/' :: rest => some rest
  | '\n' :: _ => none
  | _ :: rest => scanCommentBody rest

/-- One anchored attempt of the line-106 pattern: a nonempty word-character
run, optional whitespace, then a comment; returns the captured identifier and
the input remaining after the comment. -/
def tryMatchComment (s : List Char) : Option (List Char × List Char) :=
  let w := s.takeWhile isWordChar
  if w.isEmpty then none
  else
    match (s.dropWhile isWordChar).dropWhile isPySpace with
    | '/' :: '*' :: body => (scanCommentBody body).map (fun rest => (w, rest))
    | _ => none

/-- Fuelled scan of `re.finditer` for the line-106 pattern: try each start
position left to right, emitting non-overlapping matches. -/
def extractIdsAux : Nat → List Char → List (List Char)
  | 0, _ => []
  | _ + 1, [] => []
  | fuel + 1, c :: rest =>
    match tryMatchComment (c :: rest) with
    | some (w, after) => w :: extractIdsAux fuel after
    | none => extractIdsAux fuel rest

/-- The build-file identifiers extracted from a phase's `files` list span
(lines 106-108): every identifier token immediately followed (after optional
whitespace) by a comment, in document order. -/
def extractCommentIds (filesStr : List Char) : List (List Char) :=
  extractIdsAux filesStr.length filesStr

/-- The literal text the line-102 pattern requires before the list opening
delimiter. -/
def bpOpenChars : List Char := "buildPhases = (".data

/-- The closing delimiter of the buildPhases list in the line-102 pattern. -/
def bpCloseChars : List Char := ");".data

/-- The half-open character span of `l` from index `a` to index `b`. -/
def listSlice (l : List Char) (a b : Nat) : List Char :=
  (l.drop a).take (b - a)

/-- The captured group of the line-102/103 search
`re.search(rf'{target_id}.*?buildPhases = \((.*?)\);', content, re.DOTALL)`:
from the leftmost occurrence of the target identifier, lazily reach the next
`buildPhases = (`, then capture up to the next `);`; `none` when the pattern
does not match. -/
def phaseGroup (content tid : List Char) : Option (List Char) :=
  match findFrom content tid 0 with
  | none => none
  | some i =>
    match findFrom content bpOpenChars (i + tid.length) with
    | none => none
    | some j =>
      match findFrom content bpCloseChars (j + bpOpenChars.length) with
      | none => none
      | some k => some (listSlice content (j + bpOpenChars.length) k)

/-- The ownership test of line 104: the phase identifier occurs inside the
captured buildPhases list contents. -/
def ownsPhase (content tid pid : List Char) : Bool :=
  match phaseGroup content tid with
  | none => false
  | some g => isSubstrL pid g

/-- The ownership test exactly as the specification words it: the phase
identifier occurs inside the span beginning at the target's identifier and
ending at its buildPhases field closing delimiter.  Stated for the
refinement comparison with `ownsPhase`. -/
def ownsPhaseSpec (content tid pid : List Char) : Bool :=
  match findFrom content tid 0 with
  | none => false
  | some i =>
    match findFrom content bpOpenChars (i + tid.length) with
    | none => false
    | some j =>
      match findFrom content bpCloseChars (j + bpOpenChars.length) with
      | none => false
      | some k => isSubstrL pid (listSlice content i (k + bpCloseChars.length))

/-- A parse-level native target record: declared name and accumulated
resolved file paths (line 92). -/
structure PTarget where
  name : List Char
  files : List (List Char)
deriving DecidableEq

/-- One iteration of the phase-linking loop (lines 100-113) for a single
sources phase with already-extracted build-file identifiers: every target
whose ownership test succeeds has the phase's resolved paths appended to its
files, in encounter order; other targets are untouched. -/
def linkPhaseIds (content : List Char) (bf : List (List Char × List Char))
    (fr : List (List Char × FileRef)) (pid : List Char)
    (ids : List (List Char)) (targets : List (List Char × PTarget)) :
    List (List Char × PTarget) :=
  targets.map fun t =>
    if ownsPhase content t.1 pid then
      (t.1, ⟨t.2.name, t.2.files ++ resolvePhaseFiles bf fr ids⟩)
    else t

/-- The phase-linking loop on the raw `files` span: extract the build-file
identifiers, then link (lines 100-113). -/
def linkPhase (content : List Char) (bf : List (List Char × List Char))
    (fr : List (List Char × FileRef)) (pid filesStr : List Char)
    (targets : List (List Char × PTarget)) : List (List Char × PTarget) :=
  linkPhaseIds content bf fr pid (extractCommentIds filesStr) targets

theorem findFrom_none_iff {hay pat : List Char} {start : Nat} :
    findFrom hay pat start = none ↔ ∀ j, start ≤ j → ¬OccAt hay pat j := by
  unfold findFrom
  constructor
  · intro h j hj hocc
    have hfa : findAux pat (hay.drop start) = none := by
      cases hfa : findAux pat (hay.drop start) with
      | none => rfl
      | some k => rw [hfa] at h; exact Option.noConfusion h
    apply findAux_none_iff.mp hfa (j - start)
    apply occAt_shift.mpr
    rwa [Nat.sub_add_cancel hj]
  · intro h
    cases hfa : findAux pat (hay.drop start) with
    | none => rfl
    | some k =>
      exfalso
      exact h (k + start) (by omega)
        (occAt_shift.mp (findAux_some_iff.mp hfa).1)

theorem phaseGroup_some_iff {content tid g : List Char} :
    phaseGroup content tid = some g ↔
      ∃ i j k, FirstOccFrom content tid 0 i ∧
        FirstOccFrom content bpOpenChars (i + tid.length) j ∧
        FirstOccFrom content bpCloseChars (j + bpOpenChars.length) k ∧
        g = listSlice content (j + bpOpenChars.length) k := by
  unfold phaseGroup
  constructor
  · intro h
    split at h
    · exact Option.noConfusion h
    · rename_i i h1
      split at h
      · exact Option.noConfusion h
      · rename_i j h2
        split at h
        · exact Option.noConfusion h
        · rename_i k h3
          exact ⟨i, j, k, findFrom_some_iff.mp h1, findFrom_some_iff.mp h2,
            findFrom_some_iff.mp h3, (Option.some.inj h).symm⟩
  · rintro ⟨i, j, k, hi, hj, hk, rfl⟩
    rw [findFrom_some_iff.mpr hi]
    show (match findFrom content bpOpenChars (i + tid.length) with
      | none => none
      | some j =>
        match findFrom content bpCloseChars (j + bpOpenChars.length) with
        | none => none
        | some k => some (listSlice content (j + bpOpenChars.length) k)) =
      some (listSlice content (j + bpOpenChars.length) k)
    rw [findFrom_some_iff.mpr hj]
    show (match findFrom content bpCloseChars (j + bpOpenChars.length) with
      | none => none
      | some k => some (listSlice content (j + bpOpenChars.length) k)) =
      some (listSlice content (j + bpOpenChars.length) k)
    rw [findFrom_some_iff.mpr hk]

/-- C7 (amended): ownership of a sources phase is decided against the
contents of the buildPhases list only — the span between the first
`buildPhases = (` after the target identifier's leftmost occurrence and the
next `);` — not against the whole span from the target's identifier to that
closing delimiter; and the phase's resolved paths are appended to each owning
target's files in encounter order, other targets being untouched. -/
theorem c7_phase_ownership :
    ∀ content tid pid : List Char,
      (ownsPhase content tid pid = true ↔
        ∃ i j k, FirstOccFrom content tid 0 i ∧
          FirstOccFrom content bpOpenChars (i + tid.length) j ∧
          FirstOccFrom content bpCloseChars (j + bpOpenChars.length) k ∧
          SubstrOf pid (listSlice content (j + bpOpenChars.length) k)) ∧
      (∀ bf fr ids targets,
        (linkPhaseIds content bf fr pid ids targets).map (fun t => t.2.files) =
          targets.map (fun t =>
            t.2.files ++
              if ownsPhase content t.1 pid then resolvePhaseFiles bf fr ids
              else [])) := by
  intro content tid pid
  constructor
  · constructor
    · intro h
      unfold ownsPhase at h
      cases hg : phaseGroup content tid with
      | none => rw [hg] at h; exact Bool.noConfusion h
      | some g =>
        rw [hg] at h
        obtain ⟨i, j, k, hi, hj, hk, rfl⟩ := phaseGroup_some_iff.mp hg
        exact ⟨i, j, k, hi, hj, hk, isSubstrL_iff.mp h⟩
    · rintro ⟨i, j, k, hi, hj, hk, hsub⟩
      unfold ownsPhase
      rw [phaseGroup_some_iff.mpr ⟨i, j, k, hi, hj, hk, rfl⟩]
      exact isSubstrL_iff.mpr hsub
  · intro bf fr ids targets
    unfold linkPhaseIds
    rw [List.map_map]
    apply List.map_congr_left
    intro a ha
    by_cases h : ownsPhase content a.1 pid = true
    · simp [Function.comp, h]
    · simp [Function.comp, h]

/-- C7 counterexample: in the document `T1 P1 buildPhases = (Q);` the phase
identifier P1 occurs inside the span from the target identifier T1 to the
buildPhases closing delimiter, yet the code does not attribute the phase to
the target, because it tests only the list contents `Q`. -/
theorem c7_phase_ownership_counterexample :
    ownsPhase "T1 P1 buildPhases = (Q);".data "T1".data "P1".data = false ∧
    ownsPhaseSpec "T1 P1 buildPhases = (Q);".data "T1".data "P1".data = true := by
  refine ⟨by decide, by decide⟩

/-- C7 witness: the amended append rule instantiated on a concrete document,
target list, phase and resolution dictionaries. -/
theorem c7_phase_ownership_witness :
    (linkPhaseIds "T1 buildPhases = (P1);".data [("B1".data, "F1".data)]
        [("F1".data, ⟨"p1.swift".data, "grp".data⟩)] "P1".data ["B1".data]
        [("T1".data, ⟨"TgtMac".data, []⟩)]).map (fun t => t.2.files) =
      ([("T1".data, ⟨"TgtMac".data, []⟩)] : List (List Char × PTarget)).map
        (fun t =>
        t.2.files ++
          if ownsPhase "T1 buildPhases = (P1);".data t.1 "P1".data then
            resolvePhaseFiles [("B1".data, "F1".data)]
              [("F1".data, ⟨"p1.swift".data, "grp".data⟩)] ["B1".data]
          else []) :=
  (c7_phase_ownership "T1 buildPhases = (P1);".data "T1".data "P1".data).2
    [("B1".data, "F1".data)] [("F1".data, ⟨"p1.swift".data, "grp".data⟩)]
    ["B1".data] [("T1".data, ⟨"TgtMac".data, []⟩)]

/-- C6: a build-file identifier extracted from a phase's file list whose
lookup fails — absent from the buildFiles mapping, or resolving to a
file-reference identifier absent from the fileReferences mapping — is
silently dropped: the resolved path list is exactly the one obtained with the
entry deleted, so no path is appended to any target's files, and the (total)
linking routine completes normally with no error value. -/
theorem c6_dangling_reference_dropped :
    ∀ (bf : List (List Char × List Char)) (fr : List (List Char × FileRef))
      (filesStr : List Char) (pre post : List (List Char)) (bid : List Char),
      extractCommentIds filesStr = pre ++ bid :: post →
      (dictLookup bf bid = none ∨
        ∃ fid, dictLookup bf bid = some fid ∧ dictLookup fr fid = none) →
      resolvePhaseFiles bf fr (extractCommentIds filesStr) =
        resolvePhaseFiles bf fr (pre ++ post) ∧
      ∀ (content pid : List Char) (targets : List (List Char × PTarget)),
        linkPhase content bf fr pid filesStr targets =
          linkPhaseIds content bf fr pid (pre ++ post) targets := by
  intro bf fr filesStr pre post bid hids hfail
  have hnone : resolveEntry bf fr bid = none := by
    unfold resolveEntry
    rcases hfail with h | ⟨fid, h1, h2⟩
    · rw [h]
    · rw [h1]
      show (match dictLookup fr fid with
        | none => none
        | some ref => some ref.path) = none
      rw [h2]
  have heq : resolvePhaseFiles bf fr (extractCommentIds filesStr) =
      resolvePhaseFiles bf fr (pre ++ post) := by
    rw [hids]
    unfold resolvePhaseFiles
    rw [List.filterMap_append, List.filterMap_append]
    congr 1
    rw [List.filterMap_cons, hnone]
  refine ⟨heq, ?_⟩
  intro content pid targets
  unfold linkPhase linkPhaseIds
  simp only [heq]

/-- C6 witness: the drop theorem applied to a concrete phase file list whose
first entry B1 is absent from the buildFiles mapping. -/
theorem c6_dangling_reference_dropped_witness :
    resolvePhaseFiles [("B2".data, "F2".data)]
        [("F2".data, ⟨"p2.swift".data, "grp".data⟩)]
        (extractCommentIds "B1 /* a */, B2 /* b */".data) =
      resolvePhaseFiles [("B2".data, "F2".data)]
        [("F2".data, ⟨"p2.swift".data, "grp".data⟩)] ([] ++ ["B2".data]) :=
  (c6_dangling_reference_dropped [("B2".data, "F2".data)]
    [("F2".data, ⟨"p2.swift".data, "grp".data⟩)] "B1 /* a */, B2 /* b */".data
    [] ["B2".data] "B1".data (by decide) (Or.inl (by decide))).1

/-- The fixed derived path of the project descriptor file (line 123). -/
def projectFilePath (projectDir : String) : String :=
  projectDir ++ "/Schedule Summary Widget Nov 26 2025.xcodeproj/project.pbxproj"

/-- Outcome of the top-level routine: either it reported a missing input file
and returned early, or it ran the membership check to completion. -/
inductive RunOutcome where
  | notFound (message : String)
  | completed (result : CheckResult)
deriving DecidableEq

/-- The top-level routine `check_target_membership` (lines 121-157), with the
filesystem modelled as a boolean existence flag together with the targets the
descriptor would parse to, and printing modelled by the returned value: when
the descriptor file does not exist the routine prints the not-found message
and returns normally (lines 125-127); otherwise it proceeds to the check. -/
def runCheckTM (projectDir : String) (descriptorExists : Bool)
    (targets : List TargetInfo) : RunOutcome :=
  if descriptorExists then RunOutcome.completed (runMembershipCheck targets)
  else
    RunOutcome.notFound
      ("❌ Project file not found: " ++ projectFilePath projectDir)

/-- The process exit status of the script entry point (lines 198-205): the
routine is a total function and the script never exits with a nonzero
status, so every run exits 0. -/
def scriptExitCode (projectDir : String) (descriptorExists : Bool)
    (targets : List TargetInfo) : Nat :=
  match runCheckTM projectDir descriptorExists targets with
  | RunOutcome.notFound _ => 0
  | RunOutcome.completed _ => 0

/-- C8: when the input descriptor file does not exist at the fixed derived
path, the routine produces exactly the not-found message naming that path and
returns normally (it is a total function, so no exception propagates), and
the process exit code is 0. -/
theorem c8_missing_input_file :
    ∀ (projectDir : String) (targets : List TargetInfo),
      runCheckTM projectDir false targets =
        RunOutcome.notFound
          ("❌ Project file not found: " ++ projectFilePath projectDir) ∧
      scriptExitCode projectDir false targets = 0 := by
  intro projectDir targets
  exact ⟨rfl, rfl⟩

theorem perm_toFinset {l₁ l₂ : List String} (h : l₁.Perm l₂) :
    l₁.toFinset = l₂.toFinset := by
  ext a
  simp [List.mem_toFinset, h.mem_iff]

theorem normSet_perm {l₁ l₂ : List String} (h : l₁.Perm l₂) :
    normSet l₁ = normSet l₂ :=
  perm_toFinset (h.map normalize_path)

theorem any_perm {p : String → Bool} {l₁ l₂ : List String} (h : l₁.Perm l₂) :
    l₁.any p = l₂.any p := by
  cases ha : l₁.any p with
  | true =>
    obtain ⟨x, hx, hpx⟩ := List.any_eq_true.mp ha
    exact (List.any_eq_true.mpr ⟨x, h.mem_iff.mp hx, hpx⟩).symm
  | false =>
    cases hb : l₂.any p with
    | false => rfl
    | true =>
      obtain ⟨x, hx, hpx⟩ := List.any_eq_true.mp hb
      have : l₁.any p = true := List.any_eq_true.mpr ⟨x, h.mem_iff.mpr hx, hpx⟩
      rw [ha] at this
      exact Bool.noConfusion this

/-- The per-entry annotation of the extra-files block (lines 174-178). -/
def renderExtraLine (cfg : List String) (f : String) : String :=
  if isConflictWith cfg f then
    "   ⚠️  " ++ f ++ " (should NOT be in macOS widget target)"
  else "   ℹ️  " ++ f ++ " (may be okay)"

/-- `sorted(...)` before display (lines 166, 174): the canonical ascending
listing of a path set. -/
def sortedStrings (s : Finset String) : List String :=
  s.sort (· ≤ ·)

/-- The diff-dependent report lines (lines 163-186): missing block (sorted),
extra block (sorted, each entry annotated), and the numeric summary. -/
def reportLines (expectedRaw mainCfg iosCfg : List String)
    (files : List String) : List String :=
  (if (computeDiff files expectedRaw).1 = ∅ then
    ["✅ All required files are in the target!"]
  else
    ("❌ MISSING FILES (" ++ toString (computeDiff files expectedRaw).1.card ++
        "):") ::
      (sortedStrings (computeDiff files expectedRaw).1).map
        (fun f => "   - " ++ f)) ++
  (if (computeDiff files expectedRaw).2 = ∅ then []
  else
    ("⚠️  EXTRA FILES (" ++ toString (computeDiff files expectedRaw).2.card ++
        "):") ::
      (sortedStrings (computeDiff files expectedRaw).2).map
        (renderExtraLine (mainCfg ++ iosCfg))) ++
  ["Expected files: " ++ toString (normSet expectedRaw).card,
   "Current files: " ++ toString (normSet files).card,
   "Missing: " ++ toString (computeDiff files expectedRaw).1.card,
   "Extra: " ++ toString (computeDiff files expectedRaw).2.card]

/-- The report of the full check (lines 134-186), parameterized over the
three configuration sets presented as lists in an arbitrary iteration order
(Python set iteration order is unspecified across processes): target
identification, then the diff-dependent lines. -/
def fullCheckOutput (expectedCfg mainCfg iosCfg : List String)
    (targets : List TargetInfo) : List String :=
  match findMacTarget targets with
  | none =>
    "⚠️  Could not find macOS widget target" :: "Available targets:" ::
      targets.map (fun t => "  - " ++ t.name)
  | some t =>
    ("✅ Found target: " ++ t.name) :: reportLines expectedCfg mainCfg iosCfg t.files

/-- C9: the full check is a deterministic function of the document's parsed
content and the configuration sets: its report output is byte-identical
across runs even when the configuration sets are iterated in different
orders, because every set-dependent block is either order-insensitive or
sorted before display. -/
theorem c9_report_deterministic :
    ∀ (e₁ e₂ m₁ m₂ i₁ i₂ : List String) (targets : List TargetInfo),
      e₁.Perm e₂ → m₁.Perm m₂ → i₁.Perm i₂ →
      fullCheckOutput e₁ m₁ i₁ targets = fullCheckOutput e₂ m₂ i₂ targets := by
  intro e₁ e₂ m₁ m₂ i₁ i₂ targets he hm hi
  have hn : normSet e₁ = normSet e₂ := normSet_perm he
  have hrender : ∀ f, renderExtraLine (m₁ ++ i₁) f = renderExtraLine (m₂ ++ i₂) f := by
    intro f
    unfold renderExtraLine isConflictWith
    rw [any_perm (hm.append hi)]
  unfold fullCheckOutput
  cases findMacTarget targets with
  | none => rfl
  | some t =>
    have hreport : reportLines e₁ m₁ i₁ t.files = reportLines e₂ m₂ i₂ t.files := by
      unfold reportLines computeDiff
      rw [hn]
      rw [List.map_congr_left
        (fun f _ => hrender f :
          ∀ f ∈ sortedStrings (normSet t.files \ normSet e₂),
            renderExtraLine (m₁ ++ i₁) f = renderExtraLine (m₂ ++ i₂) f)]
    show ("✅ Found target: " ++ t.name) :: reportLines e₁ m₁ i₁ t.files =
      ("✅ Found target: " ++ t.name) :: reportLines e₂ m₂ i₂ t.files
    rw [hreport]

/-- C9 witness: identical report output for permuted presentations of the
three configuration sets on a concrete target list. -/
theorem c9_report_deterministic_witness :
    fullCheckOutput ["x", "y"] ["a", "b"] ["c"] [⟨"TMac", ["x"]⟩] =
      fullCheckOutput ["y", "x"] ["b", "a"] ["c"] [⟨"TMac", ["x"]⟩] :=
  c9_report_deterministic ["x", "y"] ["y", "x"] ["a", "b"] ["b", "a"] ["c"] ["c"]
    [⟨"TMac", ["x"]⟩] (by decide) (by decide) (by decide)

end ScheduleWidgets
